import Mathlib

/-!
Verification development for the reftable stack (`stack.go`).

The Go source is shallowly embedded: pure helpers become Lean functions on
`Nat` (unsigned 64-bit values are `Nat` with explicit `% 2^64` where Go's
wrap-around matters), byte strings become `List Char`, the filesystem
becomes an association list from names to contents, and fallible steps
return `Option`/`Except` or are driven by explicit error-injection
environments mirroring each fallible call of the source.
-/

namespace Reftable

/-! ## log2 and size-tiered segmentation (`stack.go`: log2, sizesToSegments,
suggestCompactionSegment, tableSizesForCompaction) -/

/-- Loop of Go `log2`: `for sz > 0 { l++; sz /= base }` with `base = 2`;
returns the final `l`.  The loop halves `sz` on every iteration, so it runs
at most `sz` times; the first argument is that fuel, making the recursion
structural. -/
def log2loop : Nat → Nat → Nat → Nat
  | 0, _, l => l
  | fuel + 1, sz, l => if 0 < sz then log2loop fuel (sz / 2) (l + 1) else l

/-- Go `log2`: panics on 0 (modelled as `none`), otherwise runs the loop from
`l = 0` and returns `l - 1`. -/
def log2 (sz : Nat) : Option Nat :=
  if sz = 0 then none else some (log2loop sz sz 0 - 1)

/-- Go `segment`; the Go field `end` is spelled `stop` (Lean keyword). -/
structure segment where
  start : Nat
  stop : Nat
  log : Nat
  bytes : Nat
deriving Repr, DecidableEq

/-- The zero `segment` (Go's zero value). -/
def segZero : segment := ⟨0, 0, 0, 0⟩

/-- Loop of Go `sizesToSegments` over the remaining sizes, carrying the index
`i`, the current segment `cur` and the accumulated result `res`.  A `log2`
panic propagates as `none`.  `cur.bytes += sz` is a `uint64` addition, so the
byte sum wraps modulo `2^64`. -/
def sizesToSegmentsLoop : Nat → segment → List segment → List Nat → Option (List segment)
  | _, cur, res, [] => some (res ++ [cur])
  | i, cur, res, sz :: rest =>
    match log2 sz with
    | none => none
    | some l =>
      let p := if cur.log ≠ l ∧ 0 < cur.bytes
        then (res ++ [cur], { segZero with start := i })
        else (res, cur)
      sizesToSegmentsLoop (i + 1)
        { p.2 with log := l, stop := i + 1, bytes := (p.2.bytes + sz) % 2 ^ 64 } p.1 rest

/-- Go `sizesToSegments`. -/
def sizesToSegments (sizes : List Nat) : Option (List segment) :=
  sizesToSegmentsLoop 0 segZero [] sizes

/-- First loop of Go `suggestCompactionSegment`: scan for the minimum-`log`
segment, skipping segments of size 1. -/
def pickMinSeg : List segment → segment → segment
  | [], m => m
  | s :: rest, m =>
    pickMinSeg rest (if s.stop - s.start = 1 then m else if s.log < m.log then s else m)

/-- Second loop of Go `suggestCompactionSegment`: extend the chosen segment
to the left while `log2(bytes) >= log2(sizes[prev])`; returns the final
`(start, bytes)`.  A `log2` panic propagates as `none`.
`minSeg.bytes += sizes[prev]` is a `uint64` addition, so the byte sum wraps
modulo `2^64`. -/
def extendLeftLoop : Nat → Nat → List Nat → Option (Nat × Nat)
  | 0, bytes, _ => some (0, bytes)
  | prev + 1, bytes, sizes =>
    match log2 bytes, log2 (sizes.getD prev 0) with
    | some lb, some lp =>
      if lb < lp then some (prev + 1, bytes)
      else extendLeftLoop prev ((bytes + sizes.getD prev 0) % 2 ^ 64) sizes
    | _, _ => none

/-- Go `suggestCompactionSegment`.  The outer `none` models a `log2` panic;
`some none` models the `nil` return (no suggestion). -/
def suggestCompactionSegment (sizes : List Nat) : Option (Option segment) :=
  match sizesToSegments sizes with
  | none => none
  | some segs =>
    let minSeg := pickMinSeg segs { segZero with log := 64 }
    if minSeg.stop - minSeg.start = 0 then some none
    else
      match extendLeftLoop minSeg.start minSeg.bytes sizes with
      | none => none
      | some p => some (some { minSeg with start := p.1, bytes := p.2 })

/-- Go `tableSizesForCompaction`: each table contributes `t.size - 91`
computed in unsigned 64-bit arithmetic, i.e. `(size + 2^64 - 91) % 2^64`. -/
def tableSizesForCompaction (tsizes : List Nat) : List Nat :=
  tsizes.map (fun s => (s + (2 ^ 64 - 91)) % 2 ^ 64)

/-- The segment-selection part of Go `AutoCompact`:
`suggestCompactionSegment(st.tableSizesForCompaction())`.  The outer `none`
models a `log2` panic. -/
def autoCompactSelect (tsizes : List Nat) : Option (Option segment) :=
  suggestCompactionSegment (tableSizesForCompaction tsizes)

/-- The spec's counting function for C8, modelled from the spec's words:
the number of times `s` can be integer-divided by 2 before reaching 0.
Fuel-indexed like `log2loop`; `s` iterations always suffice. -/
def bitLengthSpec0 : Nat → Nat → Nat
  | 0, _ => 0
  | fuel + 1, s => if 0 < s then bitLengthSpec0 fuel (s / 2) + 1 else 0

/-- The spec's "bit length of `s`". -/
def bitLengthSpec (s : Nat) : Nat := bitLengthSpec0 s s

/-! ## Byte strings and manifest I/O (`stack.go`: readNames, and the
`strings.Join(names, "\n")` manifest writes of `add` and `compactRange`) -/

/-- Byte strings of the Go code, modelled as lists of characters. -/
abbrev Str := List Char

/-- Go `bytes.Split(c, []byte("\n"))`. -/
def splitOnNl : Str → List Str
  | [] => [[]]
  | c :: rest =>
    if c = '\n' then [] :: splitOnNl rest
    else
      match splitOnNl rest with
      | g :: gs => (c :: g) :: gs
      | [] => [[c]]

/-- Go `readNames` applied to the manifest content; `none` models a missing
file (`os.IsNotExist`, returning no names and no error); otherwise split on
newline and keep the non-empty lines. -/
def readNames : Option Str → List Str
  | none => []
  | some c => (splitOnNl c).filter (fun l => decide (¬ l = []))

/-- Go `strings.Join(names, "\n")`. -/
def joinNames : List Str → Str
  | [] => []
  | [n] => n
  | n :: rest => n ++ '\n' :: joinNames rest

/-! ## Table file names (`stack.go`: formatName) -/

/-- Go `formatName`: `fmt.Sprintf("%012x-%012x", min, max)` — lower-case
hex, zero-padded on the left to width 12. -/
def pad12 (ds : Str) : Str := List.replicate (12 - ds.length) '0' ++ ds

/-- Go `formatName`. -/
def formatName (min max : Nat) : Str :=
  pad12 (Nat.toDigits 16 min) ++ '-' :: pad12 (Nat.toDigits 16 max)

/-- `".lock"`, the suffix of every lock file. -/
def lockExt : Str := ['.', 'l', 'o', 'c', 'k']

/-- `".ref"`, the suffix of every table file. -/
def refExt : Str := ['.', 'r', 'e', 'f']

/-! ## Records and the compaction write loops (`stack.go`: writeCompact) -/

/-- `RefRecord` as consumed by `writeCompact`.  The record codec lives
outside `stack.go`; only what the stack touches is modelled: a key and the
`isDeletion` tombstone predicate. -/
structure RefRecord where
  refName : Str
  isDeletion : Bool
deriving Repr, DecidableEq

/-- `LogRecord` as consumed by `writeCompact`; opaque to the stack. -/
structure LogRecord where
  refName : Str
  updateIndex : Nat
deriving Repr, DecidableEq

/-- The ref loop of Go `writeCompact` over the records yielded by the
merged iterator, in order: a record is skipped iff
`first == 0 && rec.isDeletion()`; every other record goes to `wr.AddRef`. -/
def writeCompactRefLoop : Nat → List RefRecord → List RefRecord
  | _, [] => []
  | first, rec :: rest =>
    if first = 0 ∧ rec.isDeletion = true then writeCompactRefLoop first rest
    else rec :: writeCompactRefLoop first rest

/-- The log loop of Go `writeCompact`: every record yielded by the merged
log iterator goes to `wr.AddLog`, unconditionally. -/
def writeCompactLogLoop : List LogRecord → List LogRecord
  | [] => []
  | rec :: rest => rec :: writeCompactLogLoop rest

/-! ## Filesystem model -/

/-- The reftable directory plus the manifest, as a flat association list
from file name to content.  `fsRename` is atomic, matching the rename
semantics the stack relies on. -/
abbrev FS := List (Str × Str)

/-- Content of file `n`, if it exists. -/
def fsLookup : FS → Str → Option Str
  | [], _ => none
  | e :: rest, n => if e.1 = n then some e.2 else fsLookup rest n

/-- Does file `n` exist? -/
def fsExists (fs : FS) (n : Str) : Bool := (fsLookup fs n).isSome

/-- `os.Remove`: removing a missing file is a no-op (the stack ignores that
error everywhere it removes files). -/
def fsRemove (fs : FS) (n : Str) : FS := fs.filter (fun e => decide (¬ e.1 = n))

/-- Create or overwrite `n` with content `c`. -/
def fsSet (fs : FS) (n : Str) (c : Str) : FS := (n, c) :: fsRemove fs n

/-- `os.OpenFile(n, O_EXCL|O_CREATE|O_WRONLY)` after the caller checked `n`
does not exist: a fresh empty file. -/
def fsCreate (fs : FS) (n : Str) : FS := fsSet fs n []

/-- `os.Rename(src, dst)`. -/
def fsRename (fs : FS) (src dst : Str) : FS :=
  match fsLookup fs src with
  | none => fs
  | some c => fsSet (fsRemove fs src) dst c

/-- Remove a list of files. -/
def fsRemoveAll (fs : FS) : List Str → FS
  | [] => fs
  | n :: rest => fsRemoveAll (fsRemove fs n) rest

/-! ## The stack state and Go `add` (`stack.go`: Stack, NextUpdateIndex,
UpToDate, add) -/

/-- The fields of a `Reader` that the stack manager consults: `Name`,
`MinUpdateIndex`, `MaxUpdateIndex`. -/
structure ReaderInfo where
  name : Str
  minU : Nat
  maxU : Nat
deriving Repr, DecidableEq, Inhabited

/-- Go `NextUpdateIndex`: last reader's max update index plus one, or 1 on
an empty stack. -/
def nextUpdateIndex (stack : List ReaderInfo) : Nat :=
  match stack.getLast? with
  | some r => r.maxU + 1
  | none => 1

/-- Go `UpToDate`: the names read from the manifest equal the in-memory
stack's reader names position-wise. -/
def upToDate (listFile : Str) (stack : List ReaderInfo) (fs : FS) : Bool :=
  readNames (fsLookup fs listFile) == stack.map (fun r => r.name)

/-- Error injection for the fallible calls of Go `add`, in source order,
plus the update-index range the Writer actually observed from the records
the callback wrote: `add` checks `wrMin` against `next`; `wrMax` is never
consulted by the source. -/
structure AddEnv where
  tmpSuffix : Str
  tempErr : Bool
  writerErr : Bool
  writeCbErr : Bool
  wrCloseErr : Bool
  tabCloseErr : Bool
  wrMin : Nat
  wrMax : Nat
  renameTabErr : Bool
  lockWriteErr : Bool
  lockCloseErr : Bool
  renameLockErr : Bool
deriving Repr, DecidableEq

/-- Which fallible step of `add` failed. -/
inductive AddStep
  | tempFile
  | newWriter
  | writeCb
  | wrClose
  | tabClose
  | renameTab
  | lockWrite
  | lockClose
  | renameLock
deriving Repr, DecidableEq

/-- Result of Go `add`: success, `ErrLockFailure`, or the propagated error
of a step. -/
inductive AddRes
  | ok
  | lockFailure
  | err (step : AddStep)
deriving Repr, DecidableEq

/-- Go `add` (the body of `Add`), acting on the filesystem model.  Each
`if env.… then` mirrors one fallible call returning an error.  The deferred
cleanups are inlined at every return: once the lock file is created, every
return removes it (`defer` with `lockFile != ""`), and the
`defer os.Remove(f.Name())` installed right after the temporary table is
created removes `f.Name()` — which is the lock file's path again, not the
temporary table's — so error returns after that point remove the lock file
twice and never the temporary table.  `ioutil.TempFile(dir, fn+"*.ref")`
yields the name `fn ++ tmpSuffix ++ ".ref"`. -/
def addGo (listFile : Str) (stack : List ReaderInfo) (env : AddEnv) (fs : FS) :
    AddRes × FS :=
  let lockFile := listFile ++ lockExt
  if fsExists fs lockFile then (.lockFailure, fs)
  else
    let fs := fsCreate fs lockFile
    if ¬ upToDate listFile stack fs then (.lockFailure, fsRemove fs lockFile)
    else
      let names := stack.map (fun r => r.name)
      let next := nextUpdateIndex stack
      let fn := formatName next next
      if env.tempErr then (.err .tempFile, fsRemove fs lockFile)
      else
        let tmpName := fn ++ env.tmpSuffix ++ refExt
        let fs := fsCreate fs tmpName
        if env.writerErr then (.err .newWriter, fsRemove fs lockFile)
        else if env.writeCbErr then (.err .writeCb, fsRemove fs lockFile)
        else if env.wrCloseErr then (.err .wrClose, fsRemove fs lockFile)
        else if env.tabCloseErr then (.err .tabClose, fsRemove fs lockFile)
        else if env.wrMin < next then (.lockFailure, fsRemove fs lockFile)
        else
          let dest := fn ++ refExt
          let names := names ++ [dest]
          if env.renameTabErr then (.err .renameTab, fsRemove fs lockFile)
          else
            let fs := fsRename fs tmpName dest
            if env.lockWriteErr then
              (.err .lockWrite, fsRemove (fsRemove fs dest) lockFile)
            else
              let fs := fsSet fs lockFile (joinNames names)
              if env.lockCloseErr then
                (.err .lockClose, fsRemove (fsRemove fs dest) lockFile)
              else if env.renameLockErr then
                (.err .renameLock, fsRemove (fsRemove fs dest) lockFile)
              else
                let fs := fsRename fs lockFile listFile
                (.ok, fsRemove fs lockFile)

/-! ## Go `compactRange` (`stack.go`: compactLocked, compactRange) -/

/-- Error injection for the fallible steps of `compactRange`:
`compactErr` covers the whole of `compactLocked` failing (its own deferred
`os.Remove(rmName)` correctly deletes that temporary file), the rest are
the fallible calls after it, in source order. -/
structure CompactEnv where
  tmpSuffix : Str
  compactErr : Bool
  relockErr : Bool
  renameTabErr : Bool
  lockWriteErr : Bool
  lockCloseErr : Bool
  renameLockErr : Bool
deriving Repr, DecidableEq

/-- Which fallible step of `compactRange` failed. -/
inductive CompactStep
  | compactTmp
  | relock
  | renameTab
  | lockWrite
  | renameLock
deriving Repr, DecidableEq

/-- Result of Go `compactRange`: `(true, nil)` is `okDone`, `(false, nil)`
is `backedOff`, `(false, err)` is `err _`.  The final reload's error is not
modelled, so the close-failure path (which falls through) also ends in
`okDone`. -/
inductive CompactRes
  | okDone
  | backedOff
  | err (step : CompactStep)
deriving Repr, DecidableEq

/-- The names of the stack entries with indices in `[first, last]`. -/
def subNames (stack : List ReaderInfo) (first last : Nat) : List Str :=
  ((stack.map (fun r => r.name)).drop first).take (last + 1 - first)

/-- The per-table lock loop of `compactRange`: create `name + ".lock"` for
each table in turn; fail as soon as one already exists.  Returns
`(acquired?, fs, locks created)` so the caller can remove the created locks
on every exit path. -/
def acquireTableLocks : FS → List Str → Bool × FS × List Str
  | fs, [] => (true, fs, [])
  | fs, n :: rest =>
    if fsExists fs (n ++ lockExt) then (false, fs, [])
    else
      let r := acquireTableLocks (fsCreate fs (n ++ lockExt)) rest
      (r.1, r.2.1, (n ++ lockExt) :: r.2.2)

/-- Go `compactRange`, acting on the filesystem model.  It follows the
source's lock and defer discipline: the manifest lock is dropped for the
merge and re-acquired afterwards; per-table locks are removed on every
exit; `compactLocked` names its temporary file `fn ++ "_" ++ tmpSuffix ++
".ref"` and removes it itself on its own failure.  When
`lockFile.Close()` fails after the new table was renamed into place, the
source removes the new table but does not return, so the manifest rename
still proceeds. -/
def compactGo (listFile : Str) (stack : List ReaderInfo) (first last : Nat)
    (env : CompactEnv) (fs : FS) : CompactRes × FS :=
  if first ≥ last then (.okDone, fs)
  else
    let lockFileName := listFile ++ lockExt
    if fsExists fs lockFileName then (.backedOff, fs)
    else
      let fs := fsCreate fs lockFileName
      if ¬ upToDate listFile stack fs then (.backedOff, fsRemove fs lockFileName)
      else
        let subs := subNames stack first last
        let acq := acquireTableLocks fs subs
        let fs := acq.2.1
        let subLocks := acq.2.2
        if ¬ acq.1 then
          (.backedOff, fsRemove (fsRemoveAll fs subLocks) lockFileName)
        else
          let fs := fsRemove fs lockFileName
          let fn0 := formatName ((stack.getD first default).minU)
            ((stack.getD last default).maxU)
          if env.compactErr then (.err .compactTmp, fsRemoveAll fs subLocks)
          else
            let tmpName := fn0 ++ '_' :: env.tmpSuffix ++ refExt
            let fs := fsCreate fs tmpName
            if env.relockErr then
              (.err .relock, fsRemove (fsRemoveAll fs subLocks) lockFileName)
            else
              let fs := fsCreate fs lockFileName
              let fn := fn0 ++ refExt
              if env.renameTabErr then
                (.err .renameTab, fsRemove (fsRemoveAll fs subLocks) lockFileName)
              else
                let fs := fsRename fs tmpName fn
                let names := (stack.map (fun r => r.name)).take first
                  ++ [fn] ++ (stack.map (fun r => r.name)).drop (last + 1)
                if env.lockWriteErr then
                  (.err .lockWrite,
                    fsRemove (fsRemoveAll (fsRemove fs fn) subLocks) lockFileName)
                else
                  let fs := fsSet fs lockFileName (joinNames names)
                  let fs := if env.lockCloseErr then fsRemove fs fn else fs
                  if env.renameLockErr then
                    (.err .renameLock,
                      fsRemove (fsRemoveAll (fsRemove fs fn) subLocks) lockFileName)
                  else
                    let fs := fsRename fs lockFileName listFile
                    let fs := fsRemoveAll fs subs
                    (.okDone, fsRemoveAll fs subLocks)

/-! ## Go `reloadOnce` (`stack.go`: reloadOnce) -/

/-- A `Reader` as tracked by `reloadOnce`: its table name plus an identity
used to track which reader objects get closed. -/
structure Rdr where
  name : Str
  rid : Nat
deriving Repr, DecidableEq

/-- Lookup in the `cur` map. -/
def curLookup : List (Str × Nat) → Str → Option Nat
  | [], _ => none
  | e :: rest, n => if e.1 = n then some e.2 else curLookup rest n

/-- `delete(cur, name)`. -/
def curDelete (cur : List (Str × Nat)) (n : Str) : List (Str × Nat) :=
  cur.filter (fun e => decide (¬ e.1 = n))

/-- `cur[name] = r`: a later insert overwrites an earlier one. -/
def curSet (cur : List (Str × Nat)) (n : Str) (id : Nat) : List (Str × Nat) :=
  (n, id) :: curDelete cur n

/-- Go builds `cur` by inserting every stack reader in order. -/
def mkCurLoop (cur : List (Str × Nat)) : List Rdr → List (Str × Nat)
  | [] => cur
  | r :: rest => mkCurLoop (curSet cur r.name r.rid) rest

/-- The `cur` map of `reloadOnce`. -/
def mkCur (stack : List Rdr) : List (Str × Nat) := mkCurLoop [] stack

/-- The name loop of Go `reloadOnce`: walk `names`, reusing the reader from
`cur` when present (and deleting it there), otherwise opening a new reader
via `openF` (`none` models an open error).  On an error return the deferred
cleanup closes every reader accumulated in `newTables` — reused ones
included; the `.error` value carries their ids.  On success the readers
left over in `cur` are closed. -/
def reloadLoop (openF : Str → Option Nat) :
    List (Str × Nat) → List Rdr → List Str → Except (List Nat) (List Rdr × List Nat)
  | cur, acc, [] => .ok (acc, cur.map (fun e => e.2))
  | cur, acc, n :: rest =>
    match curLookup cur n with
    | some id => reloadLoop openF (curDelete cur n) (acc ++ [⟨n, id⟩]) rest
    | none =>
      match openF n with
      | none => .error (acc.map (fun r => r.rid))
      | some id => reloadLoop openF cur (acc ++ [⟨n, id⟩]) rest

/-- Go `reloadOnce`: `.ok (newStack, closed)` means the vectors were
swapped and `closed` are the no-longer-referenced old readers;
`.error closed` means some open failed, the error was returned, the old
vector stays installed, and `closed` are the readers the deferred cleanup
closed. -/
def reloadOnceGo (stack : List Rdr) (names : List Str)
    (openF : Str → Option Nat) : Except (List Nat) (List Rdr × List Nat) :=
  reloadLoop openF (mkCur stack) [] names

/-! ## Reachable stack states (`stack.go`: NextUpdateIndex, add,
writeCompact's SetLimits) -/

/-- The update-index interval `[minU, maxU]` of one stack table. -/
structure Itv where
  minU : Nat
  maxU : Nat
deriving Repr, DecidableEq

/-- Go `NextUpdateIndex` over intervals. -/
def nextIdx (s : List Itv) : Nat :=
  match s.getLast? with
  | some r => r.maxU + 1
  | none => 1

/-- Stack states reachable from the empty stack by successful `add`s and
compactions.  `add` appends a table whose writer-observed range `[m, M]`
passed the source's `wr.minUpdateIndex < next` check (so `nextIdx s ≤ m`)
and is a well-formed table interval (`m ≤ M`); `compactRange` replaces the
consecutive tables `a :: rest` by a single table whose limits are
`SetLimits(first's min, last's max)` as in `writeCompact`. -/
inductive Reachable : List Itv → Prop
  | base : Reachable []
  | add (s : List Itv) (m M : Nat) : Reachable s → nextIdx s ≤ m → m ≤ M →
      Reachable (s ++ [⟨m, M⟩])
  | compact (pre post : List Itv) (a : Itv) (rest : List Itv) :
      Reachable (pre ++ a :: rest ++ post) →
      Reachable (pre ++
        ⟨a.minU, ((a :: rest).getLast (List.cons_ne_nil a rest)).maxU⟩ :: post)

/-! ## Concrete scenarios used by counterexamples and bug witnesses -/

/-- A manifest file name (`listFile`), `"tabs"`. -/
def lf : Str := ['t', 'a', 'b', 's']

/-- A fixed random suffix for `ioutil.TempFile`. -/
def suffix6 : Str := ['1', '2', '3', '4', '5', '6']

/-- `add` scenario: every step succeeds, and the writer observed the range
`[1, 2]` — legal, since only `wrMin < next` is checked. -/
def envWide : AddEnv := ⟨suffix6, false, false, false, false, false, 1, 2,
  false, false, false, false⟩

/-- `add` scenario: the caller's write callback returns an error. -/
def envCbErr : AddEnv := ⟨suffix6, false, false, true, false, false, 1, 1,
  false, false, false, false⟩

/-- Table name of the table covering `[1, 1]`. -/
def tn1 : Str := formatName 1 1 ++ refExt

/-- Table name of the table covering `[2, 2]`. -/
def tn2 : Str := formatName 2 2 ++ refExt

/-- A two-table stack. -/
def stack2 : List ReaderInfo := [⟨tn1, 1, 1⟩, ⟨tn2, 2, 2⟩]

/-- The directory matching `stack2`: the manifest lists both tables and
both table files exist. -/
def fsStack2 : FS := [(lf, joinNames [tn1, tn2]), (tn1, []), (tn2, [])]

/-- `compactRange` scenario: every step succeeds except `lockFile.Close()`
at the end. -/
def envCloseErr : CompactEnv := ⟨suffix6, false, false, false, false, true, false⟩

/-- `reloadOnce` scenario: opening table `"b"` fails, any other open
succeeds with a fresh reader id `100`. -/
def openFb : Str → Option Nat := fun n => if n = ['b'] then none else some 100


/-! ## Helper lemmas -/

theorem log2loop_eq_bitLength (fuel : Nat) :
    ∀ sz l, log2loop fuel sz l = l + bitLengthSpec0 fuel sz := by
  induction fuel with
  | zero => intro sz l; simp [log2loop, bitLengthSpec0]
  | succ n ih =>
    intro sz l
    by_cases h : 0 < sz
    · simp only [log2loop, bitLengthSpec0, if_pos h, ih]
      omega
    · simp [log2loop, bitLengthSpec0, h]

theorem bitLengthSpec0_zero_right (fuel : Nat) : bitLengthSpec0 fuel 0 = 0 := by
  cases fuel <;> simp [bitLengthSpec0]

theorem bitLengthSpec0_eq_log (fuel : Nat) :
    ∀ sz, 0 < sz → sz ≤ fuel → bitLengthSpec0 fuel sz = Nat.log 2 sz + 1 := by
  induction fuel with
  | zero => intro sz h1 h2; omega
  | succ n ih =>
    intro sz h1 h2
    simp only [bitLengthSpec0, if_pos h1]
    by_cases hsz : sz = 1
    · subst hsz
      simp [bitLengthSpec0_zero_right]
    · have h2le : 2 ≤ sz := by omega
      have hdiv : 0 < sz / 2 := Nat.div_pos h2le (by norm_num)
      have hfuel : sz / 2 ≤ n := by
        have hlt : sz / 2 < sz := Nat.div_lt_self h1 (by norm_num)
        omega
      rw [ih _ hdiv hfuel, Nat.log_of_one_lt_of_le (by norm_num) h2le]

/-! ## C8 -/

/-- C8 counterexample: the source's `log2` returns 10 at 1024, while the
claim's counting function (the bit length) is 11 there. -/
theorem log2_at_1024_is_10_not_11 :
    log2 1024 = some 10 ∧ bitLengthSpec 1024 = 11 ∧ (10 : Nat) ≠ 11 := by
  decide

/-- C8 amended: for every positive `s`, the source's `log2` equals the bit
length of `s` minus one — the floor base-2 logarithm, `Nat.log 2 s` — one
less than the number of times `s` can be integer-divided by 2 before
reaching 0 (so `log2 1024 = 10`). -/
theorem log2_eq_floor_log (s : Nat) (h : 0 < s) :
    log2 s = some (Nat.log 2 s) ∧ bitLengthSpec s = Nat.log 2 s + 1 := by
  have hb : bitLengthSpec s = Nat.log 2 s + 1 := bitLengthSpec0_eq_log s s h le_rfl
  refine ⟨?_, hb⟩
  have hs : ¬ s = 0 := by omega
  simp only [log2, if_neg hs, log2loop_eq_bitLength, Nat.zero_add]
  rw [show bitLengthSpec0 s s = bitLengthSpec s from rfl, hb]
  simp

/-- Witness for `log2_eq_floor_log` at `s = 1024`. -/
theorem log2_eq_floor_log_witness :
    log2 1024 = some (Nat.log 2 1024) ∧ bitLengthSpec 1024 = Nat.log 2 1024 + 1 :=
  log2_eq_floor_log 1024 (by decide)

/-! ## C9 helper lemmas -/

theorem splitOnNl_no_nl (n : Str) (h : '\n' ∉ n) : splitOnNl n = [n] := by
  induction n with
  | nil => rfl
  | cons c cs ih =>
    have hc : ¬ c = '\n' := by
      intro hh
      exact h (hh ▸ List.mem_cons_self c cs)
    have hcs : '\n' ∉ cs := fun hm => h (List.mem_cons_of_mem c hm)
    simp only [splitOnNl, if_neg hc, ih hcs]

theorem splitOnNl_append (n rest : Str) (h : '\n' ∉ n) :
    splitOnNl (n ++ '\n' :: rest) = n :: splitOnNl rest := by
  induction n with
  | nil => simp [splitOnNl]
  | cons c cs ih =>
    have hc : ¬ c = '\n' := by
      intro hh
      exact h (hh ▸ List.mem_cons_self c cs)
    have hcs : '\n' ∉ cs := fun hm => h (List.mem_cons_of_mem c hm)
    simp only [List.cons_append, splitOnNl, if_neg hc, List.append_eq, ih hcs]

/-! ## C9 -/

/-- C9: writing any legal name sequence (each name non-empty, no newline)
as the manifest content and reading names back yields the original
sequence; reading a missing manifest yields the empty sequence. -/
theorem readNames_joinNames_roundtrip (ns : List Str)
    (h : ∀ n ∈ ns, n ≠ [] ∧ '\n' ∉ n) :
    readNames (some (joinNames ns)) = ns ∧ readNames none = [] := by
  refine ⟨?_, rfl⟩
  induction ns with
  | nil => rfl
  | cons n rest ih =>
    have hn := h n (List.mem_cons_self n rest)
    cases rest with
    | nil =>
      simp [joinNames, readNames, splitOnNl_no_nl n hn.2, hn.1]
    | cons m rest2 =>
      have hrest : ∀ x ∈ m :: rest2, x ≠ [] ∧ '\n' ∉ x := by
        intro x hx
        exact h x (List.mem_cons_of_mem n hx)
      have hstep : joinNames (n :: m :: rest2) = n ++ '\n' :: joinNames (m :: rest2) := rfl
      simp only [readNames, hstep, splitOnNl_append _ _ hn.2, List.filter_cons]
      have hd : (decide (¬ n = []) : Bool) = true := by simpa using hn.1
      rw [hd]
      have ihx := ih hrest
      simp only [readNames] at ihx
      simp only [if_true]
      rw [ihx]

/-- Witness for `readNames_joinNames_roundtrip`. -/
theorem readNames_joinNames_roundtrip_witness :
    readNames (some (joinNames [['a'], ['b', 'c']])) = [['a'], ['b', 'c']] ∧
      readNames none = [] :=
  readNames_joinNames_roundtrip [['a'], ['b', 'c']] (by decide)

/-! ## C1 -/

/-- C1: in the compaction write loop over `[first, last]`, a merged
reference record appears in the output iff it was read and it is not the
case that `first = 0` and the record is a deletion — so with `first > 0`
every deletion read from the merged view is written, and with `first = 0`
exactly the deletions are omitted; log records are never omitted. -/
theorem writeCompact_elides_iff_bottom_deletion (first : Nat)
    (refs : List RefRecord) (logs : List LogRecord) (rec : RefRecord) :
    (rec ∈ writeCompactRefLoop first refs ↔
      rec ∈ refs ∧ ¬(first = 0 ∧ rec.isDeletion = true)) ∧
    writeCompactLogLoop logs = logs := by
  constructor
  · induction refs with
    | nil => simp [writeCompactRefLoop]
    | cons r rest ih =>
      simp only [writeCompactRefLoop]
      by_cases hr : first = 0 ∧ r.isDeletion = true
      · rw [if_pos hr]
        simp only [List.mem_cons, ih]
        constructor
        · intro hh
          exact ⟨Or.inr hh.1, hh.2⟩
        · rintro ⟨hor, hp⟩
          rcases hor with heq | hm
          · exact absurd (heq ▸ hr) hp
          · exact ⟨hm, hp⟩
      · rw [if_neg hr]
        simp only [List.mem_cons, ih]
        constructor
        · rintro (heq | hh)
          · exact ⟨Or.inl heq, heq ▸ hr⟩
          · exact ⟨Or.inr hh.1, hh.2⟩
        · rintro ⟨hor, hp⟩
          rcases hor with heq | hm
          · exact Or.inl heq
          · exact Or.inr ⟨hm, hp⟩
  · induction logs with
    | nil => rfl
    | cons r rest ih => simp [writeCompactLogLoop, ih]

/-! ## C6 -/

/-- C6: size-tiered selection on the three concrete inputs: sizes
`[1024, 1024, 1024, 2^20, 2^20]` select `[0, 3)`; sizes
`[2^20, 1024, 1024]` select `[1, 3)` without left extension; a single size
`[2^20]` selects nothing. -/
theorem suggestCompactionSegment_concrete :
    suggestCompactionSegment [1024, 1024, 1024, 2 ^ 20, 2 ^ 20]
        = some (some ⟨0, 3, 10, 3072⟩) ∧
    suggestCompactionSegment [2 ^ 20, 1024, 1024]
        = some (some ⟨1, 3, 10, 2048⟩) ∧
    suggestCompactionSegment [2 ^ 20] = some none := by
  decide

/-! ## C10 helper lemmas -/

theorem log2_isSome_of_pos (b : Nat) (h : 0 < b) : ∃ l, log2 b = some l := by
  have hb : ¬ b = 0 := by omega
  exact ⟨log2loop b b 0 - 1, by simp [log2, hb]⟩

theorem sizesToSegmentsLoop_none_of_mem_zero :
    ∀ (sizes : List Nat), 0 ∈ sizes →
      ∀ i cur res, sizesToSegmentsLoop i cur res sizes = none := by
  intro sizes
  induction sizes with
  | nil => intro h; simp at h
  | cons sz rest ih =>
    intro hmem i cur res
    rcases List.mem_cons.1 hmem with h0 | h0
    · have hsz : sz = 0 := h0.symm
      simp [sizesToSegmentsLoop, hsz, log2]
    · cases hl : log2 sz with
      | none => simp [sizesToSegmentsLoop, hl]
      | some l =>
        simp only [sizesToSegmentsLoop, hl]
        exact ih h0 _ _ _

/-! ## C10 -/

/-- C10 counterexample: a stack whose only table is 90 bytes — not strictly
more than 91 — does not make segment selection panic: the size wraps to
`2^64 - 1` and selection simply returns no segment, so `AutoCompact` is
total there. -/
theorem autoCompact_total_at_90 :
    tableSizesForCompaction [90] = [2 ^ 64 - 1] ∧
    autoCompactSelect [90] = some none ∧ ¬ 91 < 90 := by
  decide

/-- Selection over a single table of nonzero wrapped size: the only segment
has size 1, so no segment is suggested and no `log2` panic occurs. -/
theorem suggestCompactionSegment_singleton (x : Nat) (hx : x ≠ 0) :
    suggestCompactionSegment [x] = some none := by
  obtain ⟨l, hl⟩ := log2_isSome_of_pos x (Nat.pos_of_ne_zero hx)
  have hsegs : sizesToSegments [x] = some [⟨0, 1, l, x % 2 ^ 64⟩] := by
    unfold sizesToSegments
    simp [sizesToSegmentsLoop, hl, segZero]
  unfold suggestCompactionSegment
  rw [hsegs]
  simp [pickMinSeg, segZero]

/-- On a one-table stack, `AutoCompact` panics only when the table is
exactly 91 bytes. -/
theorem autoCompact_single_table (s : Nat) (h1 : s < 2 ^ 64) (h2 : s ≠ 91) :
    autoCompactSelect [s] = some none := by
  have hw : (s + (2 ^ 64 - 91)) % 2 ^ 64 ≠ 0 := by omega
  have hrw : autoCompactSelect [s] =
      suggestCompactionSegment [(s + (2 ^ 64 - 91)) % 2 ^ 64] := rfl
  rw [hrw]
  exact suggestCompactionSegment_singleton _ hw

/-- C10 amended: the per-table size is the file size minus 91 in unsigned
64-bit arithmetic, and segment byte sums are accumulated in unsigned 64-bit
arithmetic as well.  A table of exactly 91 bytes (wrapped size 0) makes
`AutoCompact` panic (`log2(0)`); a table smaller than 91 bytes yields a
size that wraps around modulo `2^64` and, on a one-table stack, causes no
panic — a single table panics only at exactly 91 bytes.  But sizes strictly
above 91 do not make `AutoCompact` total either: a selected segment whose
wrapped byte sum is 0 panics in the left-extension loop, as at file sizes
`[100, 2^63 + 91, 2^63 + 91]`. -/
theorem autoCompact_panic_conditions :
    (∀ tsizes, 91 ∈ tsizes → autoCompactSelect tsizes = none) ∧
    (∀ s, s < 91 → (s + (2 ^ 64 - 91)) % 2 ^ 64 = s + (2 ^ 64 - 91)) ∧
    (∀ s, s < 2 ^ 64 → s ≠ 91 → autoCompactSelect [s] = some none) ∧
    autoCompactSelect [100, 2 ^ 63 + 91, 2 ^ 63 + 91] = none := by
  refine ⟨?_, ?_, ?_, ?_⟩
  · intro tsizes hmem
    have h0 : 0 ∈ tableSizesForCompaction tsizes := by
      simp only [tableSizesForCompaction, List.mem_map]
      exact ⟨91, hmem, by norm_num⟩
    unfold autoCompactSelect suggestCompactionSegment sizesToSegments
    rw [sizesToSegmentsLoop_none_of_mem_zero _ h0 0 segZero []]
  · intro s hs
    exact Nat.mod_eq_of_lt (by omega)
  · intro s h1 h2
    exact autoCompact_single_table s h1 h2
  · decide

/-- Witness for `autoCompact_panic_conditions`. -/
theorem autoCompact_panic_conditions_witness :
    autoCompactSelect [91, 200] = none ∧
    (90 + (2 ^ 64 - 91)) % 2 ^ 64 = 90 + (2 ^ 64 - 91) ∧
    autoCompactSelect [90] = some none :=
  ⟨autoCompact_panic_conditions.1 [91, 200] (by decide),
   autoCompact_panic_conditions.2.1 90 (by decide),
   autoCompact_panic_conditions.2.2.1 90 (by decide) (by decide)⟩


/-! ## C2 counterexample -/

/-- C2 counterexample: with an empty stack (`next = 1`) and a Writer that
actually covered `[1, 2]` (legal: only `wrMin < next` is checked), `add`
succeeds yet installs `formatName(1,1) + ".ref"`, not
`formatName(1,2) + ".ref"`: the final name uses the precomputed `next`,
never the Writer's covered range. -/
theorem add_name_ignores_writer_max :
    (addGo lf [] envWide []).1 = .ok ∧
    fsExists (addGo lf [] envWide []).2 (formatName 1 1 ++ refExt) = true ∧
    fsExists (addGo lf [] envWide []).2 (formatName 1 2 ++ refExt) = false ∧
    envWide.wrMin = 1 ∧ envWide.wrMax = 2 := by
  decide

/-! ## C3 -/

/-- C3: when the write callback fails, `add` returns the callback's error
with the manifest untouched and the manifest lock removed — but the
temporary table file remains in the directory: the deferred
`os.Remove(f.Name())` deletes the lock file a second time instead of
`tab.Name()`, the temporary table. -/
theorem add_callback_error_leaves_tempfile :
    (addGo lf [] envCbErr []).1 = .err .writeCb ∧
    fsLookup (addGo lf [] envCbErr []).2 lf = none ∧
    fsExists (addGo lf [] envCbErr []).2 (lf ++ lockExt) = false ∧
    fsExists (addGo lf [] envCbErr []).2 (formatName 1 1 ++ suffix6 ++ refExt) = true := by
  decide

/-! ## C4 -/

/-- C4: in `compactRange`, when `lockFile.Close()` fails after the new
table was renamed into place, the source removes the new table but — for
want of an early return — still installs the manifest that names it, and
then deletes the compacted input tables: the final manifest's only entry
names a file that does not exist. -/
theorem compactRange_close_error_dangling_manifest :
    (compactGo lf stack2 0 1 envCloseErr fsStack2).1 = .okDone ∧
    readNames (fsLookup (compactGo lf stack2 0 1 envCloseErr fsStack2).2 lf)
      = [formatName 1 2 ++ refExt] ∧
    fsExists (compactGo lf stack2 0 1 envCloseErr fsStack2).2
      (formatName 1 2 ++ refExt) = false ∧
    fsExists (compactGo lf stack2 0 1 envCloseErr fsStack2).2 tn1 = false ∧
    fsExists (compactGo lf stack2 0 1 envCloseErr fsStack2).2 tn2 = false ∧
    fsExists (compactGo lf stack2 0 1 envCloseErr fsStack2).2 (lf ++ lockExt) = false := by
  decide

/-! ## C5 helper lemmas -/

theorem curLookup_mem (cur : List (Str × Nat)) (n : Str) (id : Nat)
    (h : curLookup cur n = some id) : (n, id) ∈ cur := by
  induction cur with
  | nil => simp [curLookup] at h
  | cons e rest ih =>
    obtain ⟨e1, e2⟩ := e
    simp only [curLookup] at h
    by_cases he : e1 = n
    · rw [if_pos he] at h
      have h2 : e2 = id := by simpa using h
      subst he
      subst h2
      exact List.mem_cons_self _ _
    · rw [if_neg he] at h
      exact List.mem_cons_of_mem _ (ih h)

theorem curDelete_subset (cur : List (Str × Nat)) (n : Str) (e : Str × Nat)
    (h : e ∈ curDelete cur n) : e ∈ cur :=
  (List.mem_filter.1 h).1

theorem mkCurLoop_mem (stack : List Rdr) :
    ∀ cur e, e ∈ mkCurLoop cur stack →
      e ∈ cur ∨ ∃ r ∈ stack, r.name = e.1 ∧ r.rid = e.2 := by
  induction stack with
  | nil => intro cur e h; exact Or.inl h
  | cons r rest ih =>
    intro cur e h
    rcases ih _ e h with hc | ⟨r2, hr2, hn⟩
    · simp only [curSet] at hc
      rcases List.mem_cons.1 hc with he | he
      · exact Or.inr ⟨r, List.mem_cons_self r rest, by simp [he]⟩
      · exact Or.inl (curDelete_subset _ _ _ he)
    · exact Or.inr ⟨r2, List.mem_cons_of_mem r hr2, hn⟩

theorem reloadLoop_error_mem (openF : Str → Option Nat) (P : Nat → Prop) :
    ∀ (names : List Str) (cur : List (Str × Nat)) (acc : List Rdr)
      (closed : List Nat),
      (∀ e ∈ cur, P e.2) →
      (∀ r ∈ acc, P r.rid) →
      (∀ n ∈ names, ∀ id, openF n = some id → P id) →
      reloadLoop openF cur acc names = .error closed →
      ∀ id ∈ closed, P id := by
  intro names
  induction names with
  | nil =>
    intro cur acc closed _ _ _ h
    simp [reloadLoop] at h
  | cons n rest ih =>
    intro cur acc closed hcur hacc hopen h
    simp only [reloadLoop] at h
    cases hl : curLookup cur n with
    | some id =>
      rw [hl] at h
      refine ih _ _ _ (fun e he => hcur e (curDelete_subset _ _ _ he)) ?_
        (fun m hm => hopen m (List.mem_cons_of_mem _ hm)) h
      intro r hr
      rcases List.mem_append.1 hr with h1 | h1
      · exact hacc r h1
      · have h2 : r = ⟨n, id⟩ := by simpa using h1
        subst h2
        exact hcur (n, id) (curLookup_mem _ _ _ hl)
    | none =>
      rw [hl] at h
      cases ho : openF n with
      | none =>
        rw [ho] at h
        have hcl : acc.map (fun r => r.rid) = closed := by
          simpa using h
        intro id hid
        rw [← hcl] at hid
        obtain ⟨r, hr, hrid⟩ := List.mem_map.1 hid
        exact hrid ▸ hacc r hr
      | some id =>
        rw [ho] at h
        refine ih _ _ _ hcur ?_
          (fun m hm => hopen m (List.mem_cons_of_mem _ hm)) h
        intro r hr
        rcases List.mem_append.1 hr with h1 | h1
        · exact hacc r h1
        · have h2 : r = ⟨n, id⟩ := by simpa using h1
          subst h2
          exact hopen n (List.mem_cons_self n rest) id ho

/-! ## C5 -/

/-- C5 counterexample: reloading names `["a", "b"]` over the existing stack
`[⟨"a", #0⟩]` when opening `"b"` fails returns the error — but the closed
readers are `[#0]`, and reader `#0` was carried over from the existing
vector, not freshly opened, so an existing reader is closed and no longer
usable. -/
theorem reloadOnce_error_closes_carried_over :
    reloadOnceGo [⟨['a'], 0⟩] [['a'], ['b']] openFb = .error [0] ∧
    (0 : Nat) ∈ ([⟨['a'], 0⟩] : List Rdr).map (fun r => r.rid) ∧
    openFb ['b'] = none := by
  refine ⟨by rfl, by decide, by rfl⟩

/-- C5 amended: when `reloadOnce` fails on an open, the error is returned
and the existing vector is not replaced, but the readers closed by the
deferred cleanup are those accumulated for the new vector before the
failure: each closed reader is either carried over from the existing
vector or freshly opened during this attempt — so carried-over readers of
the existing vector may be closed, not only freshly opened ones. -/
theorem reloadOnce_error_closed_characterization (stack : List Rdr)
    (names : List Str) (openF : Str → Option Nat) (closed : List Nat)
    (h : reloadOnceGo stack names openF = .error closed) :
    ∀ id ∈ closed,
      (∃ r ∈ stack, r.rid = id) ∨ (∃ n ∈ names, openF n = some id) := by
  refine reloadLoop_error_mem openF _ names (mkCur stack) [] closed ?_ ?_ ?_ h
  · intro e he
    rcases mkCurLoop_mem stack [] e he with hc | ⟨r, hr, _, hid⟩
    · simp [mkCurLoop] at hc
    · exact Or.inl ⟨r, hr, hid⟩
  · intro r hr
    simp at hr
  · intro n hn id hid
    exact Or.inr ⟨n, hn, hid⟩

/-- Witness for `reloadOnce_error_closed_characterization`. -/
theorem reloadOnce_error_closed_characterization_witness :
    (∃ r ∈ ([⟨['a'], 0⟩] : List Rdr), r.rid = 0) ∨
      (∃ n ∈ [['a'], ['b']], openFb n = some 0) :=
  reloadOnce_error_closed_characterization [⟨['a'], 0⟩] [['a'], ['b']] openFb
    [0] (by rfl) 0 (by decide)


/-! ## Filesystem lookup lemmas -/

theorem fsLookup_fsRemove (fs : FS) (n m : Str) :
    fsLookup (fsRemove fs n) m = if n = m then none else fsLookup fs m := by
  induction fs with
  | nil => by_cases hnm : n = m <;> simp [fsRemove, fsLookup, hnm]
  | cons e rest ih =>
    by_cases he : e.1 = n <;> by_cases hnm : n = m <;>
      simp_all [fsRemove, fsLookup, List.filter_cons]

theorem fsLookup_fsSet (fs : FS) (n : Str) (c : Str) (m : Str) :
    fsLookup (fsSet fs n c) m = if n = m then some c else fsLookup fs m := by
  simp only [fsSet, fsLookup]
  by_cases hnm : n = m <;> simp [hnm, fsLookup_fsRemove]

theorem append_lockExt_ne_self (l : Str) : l ++ lockExt ≠ l := by
  intro h
  have h2 := congrArg List.length h
  simp [lockExt] at h2

theorem refExt_append_ne_lockExt_append (a b : Str) :
    a ++ refExt ≠ b ++ lockExt := by
  intro h
  have h2 := congrArg List.getLast? h
  rw [List.getLast?_append_of_ne_nil _ (by simp [refExt]),
    List.getLast?_append_of_ne_nil _ (by simp [lockExt])] at h2
  exact absurd h2 (by decide)

/-! ## C2 amended -/

set_option maxHeartbeats 4000000 in
/-- C2 amended: on every successful `add`, the installed table file is
named `formatName(next, next) + ".ref"` where `next` is the
`NextUpdateIndex` value captured before the callback ran, and that same
name is appended to the manifest; the Writer's observed range is used only
for the `wrMin < next` staleness check, never for the name.  (Hypothesis
`hne`: the manifest file is not itself named like the new table file.) -/
theorem add_installs_next_next_name (listFile : Str) (stack : List ReaderInfo)
    (env : AddEnv) (fs : FS)
    (hok : (addGo listFile stack env fs).1 = AddRes.ok)
    (hne : formatName (nextUpdateIndex stack) (nextUpdateIndex stack) ++ refExt
      ≠ listFile) :
    ¬ env.wrMin < nextUpdateIndex stack ∧
    fsExists (addGo listFile stack env fs).2
      (formatName (nextUpdateIndex stack) (nextUpdateIndex stack) ++ refExt)
      = true ∧
    fsLookup (addGo listFile stack env fs).2 listFile =
      some (joinNames (stack.map (fun r => r.name) ++
        [formatName (nextUpdateIndex stack) (nextUpdateIndex stack) ++ refExt])) := by
  have hld : ¬ (listFile ++ lockExt =
      formatName (nextUpdateIndex stack) (nextUpdateIndex stack) ++ refExt) :=
    fun h => refExt_append_ne_lockExt_append _ _ h.symm
  have hll : ¬ (listFile ++ lockExt = listFile) := append_lockExt_ne_self listFile
  have hne2 : ¬ (listFile =
      formatName (nextUpdateIndex stack) (nextUpdateIndex stack) ++ refExt) :=
    fun h => hne h.symm
  simp only [addGo] at hok ⊢
  by_cases c1 : fsExists fs (listFile ++ lockExt) = true
  · rw [if_pos c1] at hok
    exact absurd hok (by simp)
  rw [if_neg c1] at hok ⊢
  by_cases c2 : ¬ upToDate listFile stack (fsCreate fs (listFile ++ lockExt)) = true
  · rw [if_pos c2] at hok
    exact absurd hok (by simp)
  rw [if_neg c2] at hok ⊢
  by_cases c3 : env.tempErr = true
  · rw [if_pos c3] at hok
    exact absurd hok (by simp)
  rw [if_neg c3] at hok ⊢
  by_cases c4 : env.writerErr = true
  · rw [if_pos c4] at hok
    exact absurd hok (by simp)
  rw [if_neg c4] at hok ⊢
  by_cases c5 : env.writeCbErr = true
  · rw [if_pos c5] at hok
    exact absurd hok (by simp)
  rw [if_neg c5] at hok ⊢
  by_cases c6 : env.wrCloseErr = true
  · rw [if_pos c6] at hok
    exact absurd hok (by simp)
  rw [if_neg c6] at hok ⊢
  by_cases c7 : env.tabCloseErr = true
  · rw [if_pos c7] at hok
    exact absurd hok (by simp)
  rw [if_neg c7] at hok ⊢
  by_cases c8 : env.wrMin < nextUpdateIndex stack
  · rw [if_pos c8] at hok
    exact absurd hok (by simp)
  rw [if_neg c8] at hok ⊢
  by_cases c9 : env.renameTabErr = true
  · rw [if_pos c9] at hok
    exact absurd hok (by simp)
  rw [if_neg c9] at hok ⊢
  by_cases c10 : env.lockWriteErr = true
  · rw [if_pos c10] at hok
    exact absurd hok (by simp)
  rw [if_neg c10] at hok ⊢
  by_cases c11 : env.lockCloseErr = true
  · rw [if_pos c11] at hok
    exact absurd hok (by simp)
  rw [if_neg c11] at hok ⊢
  by_cases c12 : env.renameLockErr = true
  · rw [if_pos c12] at hok
    exact absurd hok (by simp)
  rw [if_neg c12] at hok ⊢
  refine ⟨c8, ?_, ?_⟩
  · simp [fsExists, fsRename, fsCreate, fsLookup_fsSet, fsLookup_fsRemove,
      hld, hll, hne2]
  · simp [fsRename, fsCreate, fsLookup_fsSet, fsLookup_fsRemove,
      hld, hll, hne2]

/-- Witness for `add_installs_next_next_name` at the empty-stack scenario. -/
theorem add_installs_next_next_name_witness :
    ¬ envWide.wrMin < nextUpdateIndex [] ∧
    fsExists (addGo lf [] envWide []).2
      (formatName (nextUpdateIndex []) (nextUpdateIndex []) ++ refExt) = true ∧
    fsLookup (addGo lf [] envWide []).2 lf =
      some (joinNames (List.map (fun r => r.name) ([] : List ReaderInfo) ++
        [formatName (nextUpdateIndex []) (nextUpdateIndex []) ++ refExt])) :=
  add_installs_next_next_name lf [] envWide [] (by decide) (by decide)

/-! ## C7 helper lemma -/

theorem maxU_le_of_getLast (s : List Itv)
    (hc : List.Chain' (fun a b => a.maxU < b.minU) s)
    (hle : ∀ r ∈ s, r.minU ≤ r.maxU) :
    ∀ r ∈ s, ∀ lst, s.getLast? = some lst → r.maxU ≤ lst.maxU := by
  induction s with
  | nil => intro r hr; simp at hr
  | cons a t ih =>
    intro r hr lst hlst
    cases t with
    | nil =>
      have hra : r = a := by simpa using hr
      have hla : a = lst := by simpa using hlst
      subst hra
      subst hla
      exact le_rfl
    | cons bb t2 =>
      rw [List.getLast?_cons_cons] at hlst
      have hcc := List.chain'_cons.1 hc
      have hletail : ∀ x ∈ bb :: t2, x.minU ≤ x.maxU :=
        fun x hx => hle x (List.mem_cons_of_mem a hx)
      rcases List.mem_cons.1 hr with hra | hrt
      · subst hra
        have hab : r.maxU < bb.minU := hcc.1
        have hbb := hle bb (by simp)
        have hrec := ih hcc.2 hletail bb (by simp) lst hlst
        omega
      · exact ih hcc.2 hletail r hrt lst hlst

/-! ## C7 -/

/-- C7: in every stack state reachable from the empty stack by successful
adds and compactions, adjacent readers have non-overlapping, strictly
increasing update-index intervals (`r_i.max < r_(i+1).min`), every
interval is well-formed, and every existing interval's max lies strictly
below `NextUpdateIndex` — which is last max + 1 on a non-empty stack and 1
on an empty one by definition of `nextIdx` — so each newly added table
starts strictly above all existing intervals. -/
theorem reachable_stack_intervals_ordered (s : List Itv) (h : Reachable s) :
    List.Chain' (fun a b => a.maxU < b.minU) s ∧
    (∀ r ∈ s, r.minU ≤ r.maxU) ∧
    (∀ r ∈ s, r.maxU < nextIdx s) := by
  have main : List.Chain' (fun a b => a.maxU < b.minU) s ∧
      (∀ r ∈ s, r.minU ≤ r.maxU) := by
    induction h with
    | base => simp
    | add s m M hs hnext hmM ih =>
      obtain ⟨hc, hle⟩ := ih
      constructor
      · refine List.Chain'.append hc (List.chain'_singleton _) ?_
        intro x hx y hy
        have hy2 : (⟨m, M⟩ : Itv) = y := by simpa using hy
        subst hy2
        have hlast : s.getLast? = some x := hx
        have hxm : nextIdx s = x.maxU + 1 := by simp [nextIdx, hlast]
        show x.maxU < m
        omega
      · intro r hr
        rcases List.mem_append.1 hr with h1 | h1
        · exact hle r h1
        · have hr2 : r = ⟨m, M⟩ := by simpa using h1
          subst hr2
          exact hmM
    | compact pre post a rest hs ih =>
      obtain ⟨hc, hle⟩ := ih
      have hparts := List.chain'_append.1 hc
      have hpartsL := List.chain'_append.1 hparts.1
      have hL : (a :: rest).getLast? =
          some ((a :: rest).getLast (List.cons_ne_nil a rest)) :=
        List.getLast?_eq_getLast_of_ne_nil _
      have hLpre : (pre ++ a :: rest).getLast? =
          some ((a :: rest).getLast (List.cons_ne_nil a rest)) := by
        rw [List.getLast?_append_cons, hL]
      have hleL : ∀ x ∈ a :: rest, x.minU ≤ x.maxU := by
        intro x hx
        refine hle x ?_
        simp only [List.mem_append, List.mem_cons] at hx ⊢
        tauto
      have hamax : a.maxU ≤ ((a :: rest).getLast (List.cons_ne_nil a rest)).maxU :=
        maxU_le_of_getLast _ hpartsL.2.1 hleL a (by simp) _ hL
      constructor
      · refine List.Chain'.append hpartsL.1 ?_ ?_
        · refine List.chain'_cons'.2 ⟨?_, hparts.2.1⟩
          intro y hy
          exact hparts.2.2 _ hLpre y hy
        · intro x hx y hy
          have hy2 : (⟨a.minU,
              ((a :: rest).getLast (List.cons_ne_nil a rest)).maxU⟩ : Itv) = y := by
            simpa using hy
          subst hy2
          exact hpartsL.2.2 x hx a (by simp)
      · intro r hr
        simp only [List.mem_append, List.mem_cons] at hr
        rcases hr with h1 | h1 | h1
        · refine hle r ?_
          simp [h1]
        · subst h1
          have hale := hle a (by simp)
          show a.minU ≤ ((a :: rest).getLast (List.cons_ne_nil a rest)).maxU
          omega
        · refine hle r ?_
          simp only [List.mem_append, List.mem_cons]
          tauto
  refine ⟨main.1, main.2, ?_⟩
  intro r hr
  cases hl : s.getLast? with
  | none =>
    have hnil : s = [] := List.getLast?_eq_none_iff.1 hl
    subst hnil
    simp at hr
  | some lst =>
    have hb := maxU_le_of_getLast s main.1 main.2 r hr lst hl
    have hn : nextIdx s = lst.maxU + 1 := by simp [nextIdx, hl]
    omega

/-- Witness for `reachable_stack_intervals_ordered` on the one-table stack
reached by a first `add` covering `[1, 1]`. -/
theorem reachable_stack_intervals_ordered_witness :
    List.Chain' (fun a b => a.maxU < b.minU) ([] ++ [(⟨1, 1⟩ : Itv)]) ∧
    (⟨1, 1⟩ : Itv).maxU < nextIdx ([] ++ [(⟨1, 1⟩ : Itv)]) := by
  have hre : Reachable ([] ++ [(⟨1, 1⟩ : Itv)]) :=
    Reachable.add [] 1 1 Reachable.base (by decide) (by decide)
  exact ⟨(reachable_stack_intervals_ordered _ hre).1,
    (reachable_stack_intervals_ordered _ hre).2.2 _ (by decide)⟩

end Reftable
